import Mathlib

/-!
Verification of the cookest scheduling core (`src/main.py`, `src/cookest.py`,
`src/app.py`) against its natural-language specification.

The constraint model built by `run_optimizer` is embedded shallowly:

* `Task` mirrors the Python `Task` class (`__init__` fields, including the
  mutable `start_time` / `end_time` slots initialised to `None`).
* A solver assignment is a function `x : String → Nat → Bool` giving the value
  of the binary variable `start[key, t]`, together with a rational value for
  the continuous `makespan` variable.
* Each `m.addConstr` family of `run_optimizer` becomes one `Prop`
  (`SingleStart`, `DurationOK`, `Precedence`, `Exclusive`, `MakespanOK`);
  `Sat` is their conjunction, i.e. "the assignment satisfies every constraint
  the code generates".
* Schedule extraction and the surrounding control flow (`m.status` test,
  returning `{}` otherwise) are embedded as `extractSchedule` /
  `run_optimizer`, with the solver outcome passed in explicitly.
* `add_task` embeds the only input check in the repository
  (`app.py`, the `task_type` membership test).
-/

namespace Cookest

/-- The `Task` class of `main.py`: `name`, `task_type`, `duration`, `sequence`
are the constructor arguments; `start_time` and `end_time` start as `None`
and are written during schedule extraction. -/
structure Task where
  name : String
  task_type : String
  duration : Nat
  sequence : Int
  start_time : Option Nat
  end_time : Option Nat
deriving Repr, DecidableEq

instance : Inhabited Task := ⟨⟨"", "", 0, 0, none, none⟩⟩

/-- `Task.__init__`: the two time fields are initialised to `None`. -/
def Task.make (name task_type : String) (duration : Nat) (sequence : Int) : Task :=
  ⟨name, task_type, duration, sequence, none, none⟩

/-- The variable / schedule key used throughout `run_optimizer`:
`task.name + "_" + task.task_type`. -/
def Task.key (t : Task) : String := t.name ++ "_" ++ t.task_type

/-- `exclusive_tasks = ["chop", "fry", "wash"]` from `main.py`. -/
def exclusive_tasks : List String := ["chop", "fry", "wash"]

/-- `task.task_type in exclusive_tasks`. -/
def Task.isExclusive (t : Task) : Bool := exclusive_tasks.contains t.task_type

/-- The time horizon `T = range(sum(task.duration for task in tasks))`;
`horizon tasks` is `len(T)` and the slot set is `{0, ..., horizon - 1}`. -/
def horizon (tasks : List Task) : Nat := (tasks.map Task.duration).sum

/-- Value of a binary variable: `1` if set, `0` otherwise. -/
def ind (b : Bool) : Nat := if b then 1 else 0

/-- `quicksum(start[k, t] for t in T)`. -/
def startSum (x : String → Nat → Bool) (k : String) (H : Nat) : Nat :=
  ∑ t ∈ Finset.range H, ind (x k t)

/-- `quicksum(t * start[k, t] for t in T)` — the encoded start time. -/
def posSum (x : String → Nat → Bool) (k : String) (H : Nat) : Nat :=
  ∑ t ∈ Finset.range H, t * ind (x k t)

/-- `quicksum((t + d) * start[k, t] for t in T)` — the encoded end time. -/
def endSum (x : String → Nat → Bool) (k : String) (d : Nat) (H : Nat) : Nat :=
  ∑ t ∈ Finset.range H, (t + d) * ind (x k t)

/-- Constraint 1 of `run_optimizer`: each task starts exactly once. -/
def SingleStart (tasks : List Task) (x : String → Nat → Bool) : Prop :=
  ∀ u ∈ tasks, startSum x u.key (horizon tasks) = 1

/-- Constraint 2 of `run_optimizer`: for every task and every `t` with
`t + duration <= len(T)`, the starts inside the window `[t, t+duration)` sum
to at most `duration`. -/
def DurationOK (tasks : List Task) (x : String → Nat → Bool) : Prop :=
  ∀ u ∈ tasks, ∀ t ∈ Finset.range (horizon tasks), t + u.duration ≤ horizon tasks →
    (∑ s ∈ Finset.Ico t (t + u.duration), ind (x u.key s)) ≤ u.duration

/-- Stable insertion into a list sorted by `sequence`: an element is placed
before the first element whose `sequence` is not smaller, so elements that
compare equal keep their original relative order, as with Python's stable
`list.sort(key=lambda x: x.sequence)`. -/
def insertSorted (t : Task) : List Task → List Task
  | [] => [t]
  | u :: rest => if t.sequence ≤ u.sequence then t :: u :: rest else u :: insertSorted t rest

/-- Stable sort by the `sequence` attribute (`dish_tasks.sort(key=...)`). -/
def sortBySeq : List Task → List Task
  | [] => []
  | u :: rest => insertSorted u (sortBySeq rest)

/-- The tasks of one dish in the order `run_optimizer` iterates over them:
the input-order sublist with that `name`, stably sorted by `sequence`. -/
def dishTasks (tasks : List Task) (d : String) : List Task :=
  sortBySeq (tasks.filter (fun u => u.name == d))

/-- The consecutive pairs `(l[i], l[i+1])` of a list. -/
def consecPairs : List Task → List (Task × Task)
  | a :: b :: rest => (a, b) :: consecPairs (b :: rest)
  | _ => []

/-- Constraint 3 of `run_optimizer`: for each dish and each consecutive pair
of its sequence-sorted tasks, encoded end of the earlier `<=` encoded start of
the later. -/
def Precedence (tasks : List Task) (x : String → Nat → Bool) : Prop :=
  ∀ d ∈ tasks.map Task.name, ∀ p ∈ consecPairs (dishTasks tasks d),
    endSum x p.1.key p.1.duration (horizon tasks) ≤ posSum x p.2.key (horizon tasks)

/-- List indexing with a default, standing for Python's iteration over
distinct task objects (two list positions are distinct objects even when the
tasks are structurally equal). -/
def nth (tasks : List Task) (i : Nat) : Task := tasks.getD i default

/-- `quicksum(start[k, s] for s in range(t, min(t + e, len(T))))`: the starts
of `k` lying in the occupied window of a task of duration `e` starting at
`t`. -/
def windowSum (x : String → Nat → Bool) (k : String) (t e H : Nat) : Nat :=
  ∑ s ∈ Finset.Ico t (min (t + e) H), ind (x k s)

/-- Constraint 4 of `run_optimizer`: for every exclusive task `i` and slot
`t`, the starts of all other exclusive tasks inside `[t, t + duration_i)` sum
to at most `(1 - start[key_i, t]) * len(T)`.  When task `i` starts at `t`
the right-hand side is `0`, so no other exclusive task may start during its
run. -/
def Exclusive (tasks : List Task) (x : String → Nat → Bool) : Prop :=
  ∀ i ∈ List.range tasks.length, (nth tasks i).isExclusive = true →
    ∀ t ∈ Finset.range (horizon tasks),
      (∑ j ∈ Finset.range tasks.length,
        if j ≠ i ∧ (nth tasks j).isExclusive = true then
          windowSum x (nth tasks j).key t (nth tasks i).duration (horizon tasks)
        else 0)
      ≤ (1 - ind (x (nth tasks i).key t)) * horizon tasks

/-- The makespan constraints: the continuous variable (default lower bound
`0` in the backend) dominates every task's encoded end time, i.e.
`makespan >= quicksum((t + duration) * start[key, t] for t in T)`. -/
def MakespanOK (tasks : List Task) (x : String → Nat → Bool) (M : ℚ) : Prop :=
  0 ≤ M ∧ ∀ u ∈ tasks, ((endSum x u.key u.duration (horizon tasks) : ℕ) : ℚ) ≤ M

/-- The full constraint system generated by `run_optimizer` on `tasks`. -/
def Sat (tasks : List Task) (x : String → Nat → Bool) (M : ℚ) : Prop :=
  SingleStart tasks x ∧ DurationOK tasks x ∧ Precedence tasks x ∧
    Exclusive tasks x ∧ MakespanOK tasks x M

/-- An optimal solution: feasible, and of minimal makespan among all
feasible solutions. -/
def IsOptimal (tasks : List Task) (x : String → Nat → Bool) (M : ℚ) : Prop :=
  Sat tasks x M ∧ ∀ y N, Sat tasks y N → M ≤ N

instance (tasks : List Task) (x : String → Nat → Bool) : Decidable (SingleStart tasks x) := by
  unfold SingleStart; infer_instance

instance (tasks : List Task) (x : String → Nat → Bool) : Decidable (DurationOK tasks x) := by
  unfold DurationOK; infer_instance

instance (tasks : List Task) (x : String → Nat → Bool) : Decidable (Precedence tasks x) := by
  unfold Precedence; infer_instance

instance (tasks : List Task) (x : String → Nat → Bool) : Decidable (Exclusive tasks x) := by
  unfold Exclusive; infer_instance

instance (tasks : List Task) (x : String → Nat → Bool) (M : ℚ) :
    Decidable (MakespanOK tasks x M) := by
  unfold MakespanOK; infer_instance

instance (tasks : List Task) (x : String → Nat → Bool) (M : ℚ) : Decidable (Sat tasks x M) := by
  unfold Sat; infer_instance

/-- `s` is the slot at which the variable family `k` is started. -/
def isStartOf (x : String → Nat → Bool) (H : Nat) (k : String) (s : Nat) : Prop :=
  s < H ∧ x k s = true

instance (x : String → Nat → Bool) (H : Nat) (k : String) (s : Nat) :
    Decidable (isStartOf x H k s) := by
  unfold isStartOf; infer_instance

/-- The final value left in `task.start_time` by the extraction loop
`for t in T: if start[task_key, t].x > 0.5: task.start_time = t; ...`:
the last slot below `H` at which the variable is set, if any. -/
def lastStart (x : String → Nat → Bool) (k : String) (H : Nat) : Option Nat :=
  (List.range H).foldl (fun acc t => if x k t then some t else acc) none

/-- The returned schedule maps string keys to `(start_time, end_time)`
pairs, with Python-dict insertion semantics. -/
abbrev Schedule : Type := List (String × Nat × Nat)

/-- `schedule[k] = v` on a Python dict: replace the first entry with key `k`
in place, or append a new entry. -/
def dictInsert : Schedule → String → Nat × Nat → Schedule
  | [], k, v => [(k, v)]
  | e :: rest, k, v => if e.1 == k then (k, v) :: rest else e :: dictInsert rest k v

/-- `schedule.get(k)`. -/
def lookup (s : Schedule) (k : String) : Option (Nat × Nat) :=
  (s.find? (fun e => e.1 == k)).map (fun e => e.2)

/-- The number of entries of the schedule carrying key `k`. -/
def schedCount (s : Schedule) (k : String) : Nat :=
  (s.map Prod.fst).count k

/-- The mutation the extraction loop performs on one task object: if the
variable family of its key is set at some slot, the last such slot `t` is
written to `start_time` and `t + duration` to `end_time`; otherwise the task
is left untouched. -/
def updTask (x : String → Nat → Bool) (H : Nat) (u : Task) : Task :=
  match lastStart x u.key H with
  | some t => { u with start_time := some t, end_time := some (t + u.duration) }
  | none => u

/-- One iteration of the extraction loop: thread the schedule dict and the
(mutated) task list. -/
def extractStep (x : String → Nat → Bool) (H : Nat) (acc : Schedule × List Task)
    (u : Task) : Schedule × List Task :=
  match lastStart x u.key H with
  | some t =>
      (dictInsert acc.1 u.key (t, t + u.duration),
       acc.2 ++ [{ u with start_time := some t, end_time := some (t + u.duration) }])
  | none => (acc.1, acc.2 ++ [u])

/-- The extraction phase of `run_optimizer` (the `if m.status == GRB.OPTIMAL`
branch): returns the schedule dict together with the final states of the
input task objects. -/
def extractSchedule (tasks : List Task) (x : String → Nat → Bool) :
    Schedule × List Task :=
  tasks.foldl (extractStep x (horizon tasks)) ([], [])

/-- The solver verdict `m.status` together with, in the optimal case, the
assignment of the binary variables it found. -/
inductive SolverOutcome where
  | optimal (x : String → Nat → Bool)
  | infeasible
  | timeout

/-- `run_optimizer` after the `m.optimize()` call: extract a schedule when the
status is `GRB.OPTIMAL`, otherwise fall through and return the empty dict
(`schedule = {}`), leaving the tasks untouched.  The function body contains no
`raise` — it is total. -/
def run_optimizer (tasks : List Task) (o : SolverOutcome) : Schedule × List Task :=
  match o with
  | SolverOutcome.optimal x => extractSchedule tasks x
  | _ => ([], tasks)

/-- The recognized task types of `app.py`'s `add_task` endpoint. -/
def valid_task_types : List String := ["chop", "fry", "wash", "steam"]

/-- `add_task` from `app.py`: reject (HTTP 400) iff `task_type` is not in the
recognized list; no other field is inspected. -/
def add_task (t : Task) : Except String Task :=
  if valid_task_types.contains t.task_type then Except.ok t
  else Except.error "Invalid task_type. Must be 'chop', 'fry', 'wash', or 'steam'"

/-! ### Bookkeeping for the binary start variables -/

/-- The set of slots below `H` at which the family `k` is set. -/
def startFilter (x : String → Nat → Bool) (k : String) (H : Nat) : Finset Nat :=
  (Finset.range H).filter (fun t => x k t = true)

theorem mem_startFilter {x : String → Nat → Bool} {k : String} {H t : Nat} :
    t ∈ startFilter x k H ↔ t < H ∧ x k t = true := by
  simp [startFilter, Finset.mem_filter, Finset.mem_range]

theorem startSum_eq_card (x : String → Nat → Bool) (k : String) (H : Nat) :
    startSum x k H = (startFilter x k H).card := by
  unfold startSum startFilter
  rw [Finset.card_filter]
  refine Finset.sum_congr rfl (fun t _ => ?_)
  cases h : x k t <;> simp [ind, h]

theorem startFilter_singleton_of_one {x : String → Nat → Bool} {k : String} {H : Nat}
    (h : startSum x k H = 1) : ∃ s, startFilter x k H = {s} := by
  rw [startSum_eq_card] at h
  exact Finset.card_eq_one.mp h

theorem weighted_sum_eq {x : String → Nat → Bool} {k : String} {H s : Nat}
    (f : Nat → Nat) (h : startFilter x k H = {s}) :
    (∑ t ∈ Finset.range H, f t * ind (x k t)) = f s := by
  have h1 : (∑ t ∈ Finset.range H, f t * ind (x k t)) =
      ∑ t ∈ startFilter x k H, f t := by
    rw [startFilter, Finset.sum_filter]
    refine Finset.sum_congr rfl (fun t _ => ?_)
    cases ht : x k t <;> simp [ind, ht]
  rw [h1, h, Finset.sum_singleton]

theorem posSum_eq {x : String → Nat → Bool} {k : String} {H s : Nat}
    (h : startFilter x k H = {s}) : posSum x k H = s :=
  weighted_sum_eq (fun t => t) h

theorem endSum_eq {x : String → Nat → Bool} {k : String} {H s : Nat} (d : Nat)
    (h : startFilter x k H = {s}) : endSum x k d H = s + d :=
  weighted_sum_eq (fun t => t + d) h

theorem isStartOf_eq_of_singleton {x : String → Nat → Bool} {k : String} {H s a : Nat}
    (h : startFilter x k H = {s}) (ha : isStartOf x H k a) : a = s := by
  have : a ∈ startFilter x k H := mem_startFilter.mpr ⟨ha.1, ha.2⟩
  rw [h, Finset.mem_singleton] at this
  exact this

theorem isStartOf_of_singleton {x : String → Nat → Bool} {k : String} {H s : Nat}
    (h : startFilter x k H = {s}) : isStartOf x H k s := by
  have : s ∈ startFilter x k H := by rw [h]; exact Finset.mem_singleton_self s
  exact ⟨(mem_startFilter.mp this).1, (mem_startFilter.mp this).2⟩

theorem singleStart_filter {tasks : List Task} {x : String → Nat → Bool}
    (hS : SingleStart tasks x) {u : Task} (hu : u ∈ tasks) :
    ∃ s, startFilter x u.key (horizon tasks) = {s} :=
  startFilter_singleton_of_one (hS u hu)

theorem endSum_eq_posSum_add {x : String → Nat → Bool} {k : String} {H : Nat}
    (d : Nat) (h : startSum x k H = 1) :
    endSum x k d H = posSum x k H + d := by
  obtain ⟨s, hs⟩ := startFilter_singleton_of_one h
  rw [endSum_eq d hs, posSum_eq hs]

/-! ### Indexing helpers -/

theorem nth_eq_get {l : List Task} {i : Nat} (h : i < l.length) :
    nth l i = l.get ⟨i, h⟩ := by
  simp [nth, List.getD_eq_getElem?_getD, List.getElem?_eq_getElem h]

theorem nth_mem {l : List Task} {i : Nat} (h : i < l.length) : nth l i ∈ l := by
  rw [nth_eq_get h]; exact List.get_mem l i h

/-! ### What constraint 4 actually enforces -/

/-- The heart of the exclusivity analysis: in any satisfying assignment, once
the exclusive task at position `i` starts at slot `a`, the exclusive task at
any other position `j` cannot start at a slot of `[a, a + duration_i)`. -/
theorem no_start_in_window {tasks : List Task} {x : String → Nat → Bool} {M : ℚ}
    (hSat : Sat tasks x M) {i j : Nat}
    (hi : i < tasks.length) (hj : j < tasks.length) (hij : j ≠ i)
    (hie : (nth tasks i).isExclusive = true) (hje : (nth tasks j).isExclusive = true)
    {a b : Nat} (ha : isStartOf x (horizon tasks) (nth tasks i).key a)
    (hb : isStartOf x (horizon tasks) (nth tasks j).key b) :
    ¬ (a ≤ b ∧ b < a + (nth tasks i).duration) := by
  rintro ⟨hab, hbw⟩
  have hE := hSat.2.2.2.1
  have hcon := hE i (List.mem_range.mpr hi) hie a (Finset.mem_range.mpr ha.1)
  rw [ha.2] at hcon
  simp only [ind, if_true] at hcon
  rw [Nat.sub_self, Nat.zero_mul, Nat.le_zero] at hcon
  have hterm := (Finset.sum_eq_zero_iff.mp hcon) j (Finset.mem_range.mpr hj)
  rw [if_pos ⟨hij, hje⟩] at hterm
  have hbmem : b ∈ Finset.Ico a (min (a + (nth tasks i).duration) (horizon tasks)) :=
    Finset.mem_Ico.mpr ⟨hab, lt_min hbw hb.1⟩
  have hz := (Finset.sum_eq_zero_iff.mp hterm) b hbmem
  rw [hb.2] at hz
  simp [ind] at hz

/-- C1: For every assignment that satisfies all constraints generated by
`run_optimizer`, and for any two distinct tasks (distinct positions `i ≠ j` of
the input list) whose `task_type` is in the exclusive set
`{chop, fry, wash}`, the occupied intervals `[start, start + duration)` of
the two tasks do not intersect. -/
theorem exclusive_intervals_disjoint (tasks : List Task) (x : String → Nat → Bool)
    (M : ℚ) (hSat : Sat tasks x M) (i j : Nat)
    (hi : i < tasks.length) (hj : j < tasks.length) (hij : i ≠ j)
    (hie : (nth tasks i).isExclusive = true) (hje : (nth tasks j).isExclusive = true)
    (a b : Nat) (ha : isStartOf x (horizon tasks) (nth tasks i).key a)
    (hb : isStartOf x (horizon tasks) (nth tasks j).key b) :
    Disjoint (Finset.Ico a (a + (nth tasks i).duration))
      (Finset.Ico b (b + (nth tasks j).duration)) := by
  rw [Finset.disjoint_left]
  intro u hu1 hu2
  rw [Finset.mem_Ico] at hu1 hu2
  rcases le_or_lt a b with hab | hba
  · exact no_start_in_window hSat hi hj (Ne.symm hij) hie hje ha hb
      ⟨hab, Nat.lt_of_le_of_lt hu2.1 hu1.2⟩
  · exact no_start_in_window hSat hj hi hij hje hie hb ha
      ⟨Nat.le_of_lt hba, Nat.lt_of_le_of_lt hu1.1 hu2.2⟩

/-- A two-task instance with two exclusive tasks of different dishes,
scheduled back to back. -/
def tasksAB : List Task := [Task.make "a" "chop" 1 1, Task.make "b" "fry" 1 1]

/-- A satisfying assignment for `tasksAB`: `a_chop` starts at `0`, `b_fry`
at `1`. -/
def xAB : String → Nat → Bool := fun k t =>
  (k == "a_chop" && t == 0) || (k == "b_fry" && t == 1)

/-- Witness for C1 at a concrete input. -/
theorem exclusive_intervals_disjoint_witness :
    Sat tasksAB xAB 2 ∧
      Disjoint (Finset.Ico 0 (0 + 1)) (Finset.Ico 1 (1 + 1)) :=
  ⟨by decide,
   exclusive_intervals_disjoint tasksAB xAB 2 (by decide) 0 1 (by decide) (by decide)
     (by decide) (by decide) (by decide) 0 1 (by decide) (by decide)⟩

/-- Two exclusive tasks of duration `2` in different dishes: if constraint 4
were the weak "per-slot at most one start" form, `b_fry` could start one slot
into the run of `a_chop`. -/
def tasksCD : List Task := [Task.make "a" "chop" 2 1, Task.make "b" "fry" 2 1]

/-- C2 counterexample: the claim asserts that some assignment satisfying every
generated constraint has one exclusive task starting strictly inside the
occupied interval of another exclusive task that started earlier.  On the
concrete two-exclusive-task instance `tasksCD` no such assignment exists: the
source's constraint 4 is the big-M "no other exclusive start during my run"
form, not the per-slot at-most-one-start form. -/
theorem per_slot_encoding_claim_refuted :
    ¬ ∃ (x : String → Nat → Bool) (M : ℚ) (a b : Nat),
        Sat tasksCD x M ∧
        isStartOf x (horizon tasksCD) (nth tasksCD 0).key a ∧
        isStartOf x (horizon tasksCD) (nth tasksCD 1).key b ∧
        a < b ∧ b < a + (nth tasksCD 0).duration := by
  rintro ⟨x, M, a, b, hSat, ha, hb, hab, hbw⟩
  exact no_start_in_window hSat (by decide) (by decide) (by decide) (by decide)
    (by decide) ha hb ⟨Nat.le_of_lt hab, hbw⟩

/-- C2 (amended): the source's exclusivity constraint is the big-M
"no other exclusive start during my run" form; consequently in every
assignment satisfying all generated constraints, no exclusive task starts at
a slot strictly inside the occupied interval of another exclusive task that
started earlier. -/
theorem no_midrun_exclusive_start (tasks : List Task) (x : String → Nat → Bool)
    (M : ℚ) (hSat : Sat tasks x M) (i j : Nat)
    (hi : i < tasks.length) (hj : j < tasks.length) (hij : i ≠ j)
    (hie : (nth tasks i).isExclusive = true) (hje : (nth tasks j).isExclusive = true)
    (a b : Nat) (ha : isStartOf x (horizon tasks) (nth tasks i).key a)
    (hb : isStartOf x (horizon tasks) (nth tasks j).key b) (hab : a < b) :
    ¬ b < a + (nth tasks i).duration := fun hbw =>
  no_start_in_window hSat hi hj (Ne.symm hij) hie hje ha hb ⟨Nat.le_of_lt hab, hbw⟩

/-- Witness for the amended C2 at a concrete input. -/
theorem no_midrun_exclusive_start_witness :
    Sat tasksAB xAB 2 ∧ (0 : Nat) < 1 ∧ ¬ (1 : Nat) < 0 + 1 :=
  ⟨by decide, by decide,
   no_midrun_exclusive_start tasksAB xAB 2 (by decide) 0 1 (by decide) (by decide)
     (by decide) (by decide) (by decide) 0 1 (by decide) (by decide) (by decide)⟩

/-! ### Sorting and pair membership -/

theorem insertSorted_perm (t : Task) (l : List Task) : (insertSorted t l).Perm (t :: l) := by
  induction l with
  | nil => exact List.Perm.refl _
  | cons u rest ih =>
      rw [insertSorted]
      split
      · exact List.Perm.refl _
      · exact (List.Perm.cons u ih).trans (List.Perm.swap t u rest)

theorem sortBySeq_perm (l : List Task) : (sortBySeq l).Perm l := by
  induction l with
  | nil => exact List.Perm.refl _
  | cons u rest ih =>
      rw [sortBySeq]
      exact (insertSorted_perm u _).trans (List.Perm.cons u ih)

theorem mem_of_mem_dishTasks {tasks : List Task} {d : String} {u : Task}
    (h : u ∈ dishTasks tasks d) : u ∈ tasks :=
  List.mem_of_mem_filter ((sortBySeq_perm _).mem_iff.mp h)

theorem consecPairs_mem :
    ∀ {l : List Task} {p : Task × Task}, p ∈ consecPairs l → p.1 ∈ l ∧ p.2 ∈ l
  | a :: b :: rest, p, hp => by
      rw [consecPairs] at hp
      rcases List.mem_cons.mp hp with h | h
      · subst h
        exact ⟨List.mem_cons_self a _, List.mem_cons_of_mem a (List.mem_cons_self b rest)⟩
      · have ih := consecPairs_mem h
        exact ⟨List.mem_cons_of_mem a ih.1, List.mem_cons_of_mem a ih.2⟩

/-- C4: For every assignment satisfying the constraints generated by
`run_optimizer`, for every dish and every pair of tasks of that dish that are
consecutive in the order `run_optimizer` sorts them (stably by sequence
index), the earlier task's end (`start + duration`) is at most the later
task's start. -/
theorem precedence_end_le_start (tasks : List Task) (x : String → Nat → Bool)
    (M : ℚ) (hSat : Sat tasks x M) (d : String) (hd : d ∈ tasks.map Task.name)
    (p : Task × Task) (hp : p ∈ consecPairs (dishTasks tasks d))
    (a b : Nat) (ha : isStartOf x (horizon tasks) p.1.key a)
    (hb : isStartOf x (horizon tasks) p.2.key b) :
    a + p.1.duration ≤ b := by
  have h1 : p.1 ∈ tasks := mem_of_mem_dishTasks (consecPairs_mem hp).1
  have h2 : p.2 ∈ tasks := mem_of_mem_dishTasks (consecPairs_mem hp).2
  obtain ⟨s1, hs1⟩ := singleStart_filter hSat.1 h1
  obtain ⟨s2, hs2⟩ := singleStart_filter hSat.1 h2
  have hP := hSat.2.2.1 d hd p hp
  rw [endSum_eq p.1.duration hs1, posSum_eq hs2] at hP
  rw [isStartOf_eq_of_singleton hs1 ha, isStartOf_eq_of_singleton hs2 hb]
  exact hP

/-- One dish with two tasks in sequence order. -/
def tasksEgg : List Task := [Task.make "egg" "chop" 1 1, Task.make "egg" "fry" 1 2]

/-- A satisfying assignment for `tasksEgg`. -/
def xEgg : String → Nat → Bool := fun k t =>
  (k == "egg_chop" && t == 0) || (k == "egg_fry" && t == 1)

/-- Witness for C4 at a concrete input. -/
theorem precedence_end_le_start_witness :
    Sat tasksEgg xEgg 2 ∧ (0 : Nat) + 1 ≤ 1 :=
  ⟨by decide,
   precedence_end_le_start tasksEgg xEgg 2 (by decide) "egg" (by decide)
     (Task.make "egg" "chop" 1 1, Task.make "egg" "fry" 1 2) (by decide)
     0 1 (by decide) (by decide)⟩

/-! ### Makespan -/

/-- The maximum encoded end time over all tasks. -/
def maxEnd (tasks : List Task) (x : String → Nat → Bool) : Nat :=
  (tasks.map (fun u => endSum x u.key u.duration (horizon tasks))).foldr max 0

theorem le_foldr_max {l : List Nat} {a : Nat} (h : a ∈ l) : a ≤ l.foldr max 0 := by
  induction l with
  | nil => cases h
  | cons b rest ih =>
      rcases List.mem_cons.mp h with h | h
      · subst h; exact le_max_left _ _
      · exact le_trans (ih h) (le_max_right _ _)

theorem foldr_max_cast_le {l : List Nat} {M : ℚ} (h0 : 0 ≤ M)
    (h : ∀ a ∈ l, ((a : ℕ) : ℚ) ≤ M) : ((l.foldr max 0 : ℕ) : ℚ) ≤ M := by
  induction l with
  | nil => simpa using h0
  | cons b rest ih =>
      have hb := h b (List.mem_cons_self b rest)
      have hr := ih (fun a ha => h a (List.mem_cons_of_mem b ha))
      simp only [List.foldr_cons, Nat.cast_max]
      exact max_le hb hr

/-- Replacing the makespan value of a feasible solution by `maxEnd` keeps it
feasible: the makespan variable occurs only in the `MakespanOK` family. -/
theorem sat_with_maxEnd {tasks : List Task} {x : String → Nat → Bool} {M : ℚ}
    (hSat : Sat tasks x M) : Sat tasks x ((maxEnd tasks x : ℕ) : ℚ) :=
  ⟨hSat.1, hSat.2.1, hSat.2.2.1, hSat.2.2.2.1,
   ⟨Nat.cast_nonneg _, fun u hu =>
      Nat.cast_le.mpr (le_foldr_max (List.mem_map_of_mem _ hu))⟩⟩

/-- C3: `run_optimizer` constrains the makespan variable to dominate every
task's encoded end time and minimizes it; hence in any optimal solution the
makespan equals the maximum end time over all tasks, and no assignment
satisfying all constraints has a strictly smaller maximum end time. -/
theorem makespan_optimal (tasks : List Task) (x : String → Nat → Bool) (M : ℚ)
    (y : String → Nat → Bool) (N : ℚ)
    (hOpt : IsOptimal tasks x M) (hSat : Sat tasks y N) :
    M = ((maxEnd tasks x : ℕ) : ℚ) ∧ M ≤ ((maxEnd tasks y : ℕ) : ℚ) := by
  have hup : M ≤ ((maxEnd tasks x : ℕ) : ℚ) :=
    hOpt.2 x _ (sat_with_maxEnd hOpt.1)
  have hlow : ((maxEnd tasks x : ℕ) : ℚ) ≤ M :=
    foldr_max_cast_le hOpt.1.2.2.2.2.1 (by
      intro a ha
      obtain ⟨u, hu, rfl⟩ := List.mem_map.mp ha
      exact hOpt.1.2.2.2.2.2 u hu)
  exact ⟨le_antisymm hup hlow, hOpt.2 y _ (sat_with_maxEnd hSat)⟩

/-- Two parallel (`steam`) tasks, both started at slot `0`: the optimal
schedule of this instance. -/
def tasksSteam : List Task := [Task.make "a" "steam" 1 1, Task.make "b" "steam" 1 1]

/-- Optimal assignment: both steam tasks start at `0` (they are not in the
exclusive class, so they may overlap). -/
def xSteam : String → Nat → Bool := fun k t =>
  (k == "a_steam" || k == "b_steam") && t == 0

/-- A feasible but suboptimal assignment: the second task starts at `1`. -/
def ySteam : String → Nat → Bool := fun k t =>
  (k == "a_steam" && t == 0) || (k == "b_steam" && t == 1)

/-- `(xSteam, 1)` is optimal for `tasksSteam`: it is feasible, and every
feasible makespan is at least the first task's end time, which is at least
`1`. -/
theorem optSteam : IsOptimal tasksSteam xSteam 1 := by
  refine ⟨by decide, ?_⟩
  intro y N h
  have hu : Task.make "a" "steam" 1 1 ∈ tasksSteam := by decide
  have h1 := h.2.2.2.2.2 (Task.make "a" "steam" 1 1) hu
  have hss := h.1 (Task.make "a" "steam" 1 1) hu
  have he := endSum_eq_posSum_add (Task.make "a" "steam" 1 1).duration hss
  have hge : 1 ≤ endSum y (Task.make "a" "steam" 1 1).key
      (Task.make "a" "steam" 1 1).duration (horizon tasksSteam) := by
    rw [he]; exact Nat.le_add_left _ _
  calc (1 : ℚ) ≤ ((endSum y (Task.make "a" "steam" 1 1).key
            (Task.make "a" "steam" 1 1).duration (horizon tasksSteam) : ℕ) : ℚ) := by
          exact_mod_cast hge
    _ ≤ N := h1

/-- Witness for C3 at a concrete input. -/
theorem makespan_optimal_witness :
    IsOptimal tasksSteam xSteam 1 ∧ Sat tasksSteam ySteam 2 ∧
      (1 : ℚ) = ((maxEnd tasksSteam xSteam : ℕ) : ℚ) ∧
      (1 : ℚ) ≤ ((maxEnd tasksSteam ySteam : ℕ) : ℚ) :=
  ⟨optSteam, by decide,
   (makespan_optimal tasksSteam xSteam 1 ySteam 2 optSteam (by decide)).1,
   (makespan_optimal tasksSteam xSteam 1 ySteam 2 optSteam (by decide)).2⟩

/-! ### An infeasible instance -/

/-- Two distinct task objects with the same key `a_chop`, both of exclusive
type: constraint 4 for either object counts the shared variable family among
the "other" exclusive starts, so the model is unsatisfiable. -/
def dupExcl : List Task := [Task.make "a" "chop" 1 1, Task.make "a" "chop" 1 2]

theorem dupExcl_unsat : ¬ ∃ (x : String → Nat → Bool) (M : ℚ), Sat dupExcl x M := by
  rintro ⟨x, M, hSat⟩
  obtain ⟨s, hs⟩ := singleStart_filter hSat.1
    (show Task.make "a" "chop" 1 1 ∈ dupExcl by decide)
  have ha := isStartOf_of_singleton hs
  exact @no_start_in_window dupExcl x M hSat 0 1 (by decide) (by decide) (by decide)
    (by decide) (by decide) s s ha ha ⟨le_refl s, Nat.lt_succ_self s⟩

/-- C5 counterexample: the constraint system of `dupExcl` has no solution,
yet `run_optimizer` (whose body contains no `raise` and no
`InfeasibleScheduleError` — the name does not occur in the repository)
falls through the `if m.status == GRB.OPTIMAL` test and silently returns the
empty schedule. -/
theorem infeasible_returns_empty_schedule :
    (¬ ∃ (x : String → Nat → Bool) (M : ℚ), Sat dupExcl x M) ∧
      run_optimizer dupExcl SolverOutcome.infeasible = ([], dupExcl) :=
  ⟨dupExcl_unsat, rfl⟩

/-- C5 (amended): when the constraint system has no solution (so the solver
status is not `GRB.OPTIMAL`), `run_optimizer` returns the empty schedule and
leaves the tasks untouched; it raises nothing. -/
theorem run_optimizer_infeasible_empty (tasks : List Task)
    (h : ¬ ∃ (x : String → Nat → Bool) (M : ℚ), Sat tasks x M) :
    run_optimizer tasks SolverOutcome.infeasible = ([], tasks) := rfl

/-- Witness for the amended C5 at a concrete input. -/
theorem run_optimizer_infeasible_empty_witness :
    (¬ ∃ (x : String → Nat → Bool) (M : ℚ), Sat dupExcl x M) ∧
      (run_optimizer dupExcl SolverOutcome.infeasible).1 = [] :=
  ⟨dupExcl_unsat,
   congrArg Prod.fst (run_optimizer_infeasible_empty dupExcl dupExcl_unsat)⟩

/-- A task with non-positive duration. -/
def zeroDur : Task := Task.make "x" "steam" 0 1

/-- An input list containing the non-positive-duration task. -/
def tasksZero : List Task := [zeroDur, Task.make "y" "steam" 2 1]

/-- A satisfying assignment for `tasksZero`. -/
def xZero : String → Nat → Bool := fun k t =>
  (k == "x_steam" || k == "y_steam") && t == 0

/-- C6 counterexample: a task with `duration = 0` (`≤ 0`) passes the intake
check of `app.py` (which inspects only `task_type`), the constraint model is
built for it and is even satisfiable, and extraction returns a schedule
containing it — no `ValidationError` exists anywhere on the path (the name
does not occur in the repository). -/
theorem validation_claim_refuted :
    zeroDur.duration ≤ 0 ∧ add_task zeroDur = Except.ok zeroDur ∧
      Sat tasksZero xZero 2 ∧
      (run_optimizer tasksZero (SolverOutcome.optimal xZero)).1 =
        [("x_steam", 0, 0), ("y_steam", 0, 2)] :=
  ⟨by decide, rfl, by decide, by decide⟩

/-- C6 (amended): the only input check in the repository is `add_task`'s
`task_type` membership test — a task is accepted if and only if its
`task_type` is in `{chop, fry, wash, steam}`; `duration` and key uniqueness
are never checked, and the core `run_optimizer` performs no validation at
all. -/
theorem add_task_checks_only_type (t : Task) :
    add_task t = Except.ok t ↔ t.task_type ∈ valid_task_types := by
  unfold add_task
  cases h : valid_task_types.contains t.task_type
  · simp only [h, Bool.false_eq_true, if_false]
    refine iff_of_false (by simp) (fun hm => ?_)
    have hc : valid_task_types.contains t.task_type = true := List.elem_iff.mpr hm
    rw [h] at hc
    cases hc
  · simp [h, List.elem_iff.mp h]

/-! ### The fully-serial schedule

To show the model satisfiable we build the fully-serial schedule: the dishes
are laid out one after another (each dish's tasks in the order `run_optimizer`
sorts them), and each task starts when the previous one ends. -/

/-- All tasks, grouped dish by dish in the iteration order of constraint 3. -/
def orderedList (tasks : List Task) : List Task :=
  ((tasks.map Task.name).dedup).flatMap (dishTasks tasks)

/-- Pair each task of `l` with its serial start time, the first task starting
at `off`. -/
def serialStarts : Nat → List Task → List (Task × Nat)
  | _, [] => []
  | off, u :: rest => (u, off) :: serialStarts (off + u.duration) rest

/-- The serial assignment: `start[k, t] = 1` iff some task of `l` with key
`k` has serial start time `t`. -/
def serialX (l : List Task) (k : String) (t : Nat) : Bool :=
  (serialStarts 0 l).any (fun p => p.1.key == k && p.2 == t)

theorem serialStarts_fst (off : Nat) (l : List Task) :
    (serialStarts off l).map Prod.fst = l := by
  induction l generalizing off with
  | nil => rfl
  | cons u rest ih => simp [serialStarts, ih]

theorem serialStarts_bounds {off : Nat} {l : List Task} {p : Task × Nat}
    (hp : p ∈ serialStarts off l) :
    off ≤ p.2 ∧ p.2 + p.1.duration ≤ off + (l.map Task.duration).sum := by
  induction l generalizing off with
  | nil => cases hp
  | cons u rest ih =>
      rw [serialStarts] at hp
      rcases List.mem_cons.mp hp with rfl | hp
      · simp only [List.map_cons, List.sum_cons]
        omega
      · have h := ih hp
        simp only [List.map_cons, List.sum_cons]
        omega

theorem serialStarts_pairwise (off : Nat) (l : List Task) :
    (serialStarts off l).Pairwise (fun p q => p.2 + p.1.duration ≤ q.2) := by
  induction l generalizing off with
  | nil => exact List.Pairwise.nil
  | cons u rest ih =>
      rw [serialStarts]
      exact List.Pairwise.cons (fun q hq => (serialStarts_bounds hq).1) (ih _)

theorem serialStarts_append (off : Nat) (l1 l2 : List Task) :
    serialStarts off (l1 ++ l2) =
      serialStarts off l1 ++ serialStarts (off + (l1.map Task.duration).sum) l2 := by
  induction l1 generalizing off with
  | nil => simp [serialStarts]
  | cons u rest ih =>
      simp only [List.cons_append, serialStarts, List.append_eq, List.map_cons,
        List.sum_cons, ih, Nat.add_assoc]

theorem mem_serialStarts_of_mem {l : List Task} {u : Task} (hu : u ∈ l) (off : Nat) :
    ∃ s, (u, s) ∈ serialStarts off l := by
  induction l generalizing off with
  | nil => cases hu
  | cons v rest ih =>
      rcases List.mem_cons.mp hu with rfl | hu
      · exact ⟨off, List.mem_cons_self _ _⟩
      · obtain ⟨s, hs⟩ := ih hu (off + v.duration)
        exact ⟨s, List.mem_cons_of_mem _ hs⟩

theorem serialX_iff {l : List Task} {k : String} {t : Nat} :
    serialX l k t = true ↔ ∃ p ∈ serialStarts 0 l, p.1.key = k ∧ p.2 = t := by
  simp [serialX, List.any_eq_true, Bool.and_eq_true, beq_iff_eq]

theorem mem_dishTasks_iff {tasks : List Task} {d : String} {u : Task} :
    u ∈ dishTasks tasks d ↔ u ∈ tasks ∧ u.name = d := by
  rw [dishTasks, (sortBySeq_perm _).mem_iff, List.mem_filter]
  simp [beq_iff_eq]

theorem mem_orderedList_iff {tasks : List Task} {u : Task} :
    u ∈ orderedList tasks ↔ u ∈ tasks := by
  rw [orderedList, List.mem_flatMap]
  constructor
  · rintro ⟨d, _, hu⟩
    exact (mem_dishTasks_iff.mp hu).1
  · intro hu
    exact ⟨u.name, List.mem_dedup.mpr (List.mem_map_of_mem Task.name hu),
      mem_dishTasks_iff.mpr ⟨hu, rfl⟩⟩

theorem dishTasks_nodup {tasks : List Task} (h : tasks.Nodup) (d : String) :
    (dishTasks tasks d).Nodup :=
  ((sortBySeq_perm _).nodup_iff).mpr (h.filter _)

theorem orderedList_nodup {tasks : List Task} (h : tasks.Nodup) :
    (orderedList tasks).Nodup := by
  rw [orderedList, List.nodup_flatMap]
  refine ⟨fun d _ => dishTasks_nodup h d, ?_⟩
  refine List.Pairwise.imp ?_ (List.nodup_dedup _)
  intro d1 d2 hne u hu1 hu2
  exact hne ((mem_dishTasks_iff.mp hu1).2 ▸ (mem_dishTasks_iff.mp hu2).2)

theorem orderedList_perm {tasks : List Task} (h : tasks.Nodup) :
    (orderedList tasks).Perm tasks := by
  refine List.Subperm.antisymm ?_ ?_
  · exact ((orderedList_nodup h).subperm (fun u hu => mem_orderedList_iff.mp hu))
  · exact (h.subperm (fun u hu => mem_orderedList_iff.mpr hu))

theorem orderedList_durations {tasks : List Task} (h : tasks.Nodup) :
    ((orderedList tasks).map Task.duration).sum = horizon tasks :=
  ((orderedList_perm h).map Task.duration).sum_eq

theorem pairwise_either {α : Type} {R : α → α → Prop} :
    ∀ {l : List α}, l.Pairwise R → ∀ {a b : α}, a ∈ l → b ∈ l → a ≠ b →
      R a b ∨ R b a := by
  intro l
  induction l with
  | nil => intro _ a b ha _ _; cases ha
  | cons u rest ih =>
      intro hl a b ha hb hne
      have h1 := (List.pairwise_cons.mp hl).1
      have h2 := (List.pairwise_cons.mp hl).2
      rcases List.mem_cons.mp ha with rfl | ha2
      · rcases List.mem_cons.mp hb with rfl | hb2
        · exact absurd rfl hne
        · exact Or.inl (h1 b hb2)
      · rcases List.mem_cons.mp hb with rfl | hb2
        · exact Or.inr (h1 a ha2)
        · exact ih h2 ha2 hb2 hne

theorem length_le_horizon {tasks : List Task} (hdur : ∀ u ∈ tasks, 0 < u.duration) :
    tasks.length ≤ horizon tasks := by
  induction tasks with
  | nil => exact Nat.le_refl 0
  | cons u rest ih =>
      have h1 := hdur u (List.mem_cons_self u rest)
      have h2 := ih (fun v hv => hdur v (List.mem_cons_of_mem u hv))
      simp only [List.length_cons, horizon, List.map_cons, List.sum_cons] at h2 ⊢
      omega

theorem consecPairs_split :
    ∀ {l : List Task} {p : Task × Task}, p ∈ consecPairs l →
      ∃ l1 l2, l = l1 ++ p.1 :: p.2 :: l2
  | a :: b :: rest, p, hp => by
      rw [consecPairs] at hp
      rcases List.mem_cons.mp hp with rfl | h
      · exact ⟨[], rest, rfl⟩
      · obtain ⟨l1, l2, heq⟩ := consecPairs_split h
        exact ⟨a :: l1, l2, by rw [List.cons_append, ← heq]⟩

theorem serial_start_unique {tasks : List Task}
    (hkeys : (tasks.map Task.key).Nodup) {p : Task × Nat}
    (hp : p ∈ serialStarts 0 (orderedList tasks)) {u : Task} (hu : u ∈ tasks)
    (hk : p.1.key = u.key) : p.1 = u := by
  have hmem : p.1 ∈ orderedList tasks := by
    rw [← serialStarts_fst 0 (orderedList tasks)]
    exact List.mem_map_of_mem Prod.fst hp
  exact List.inj_on_of_nodup_map hkeys (mem_orderedList_iff.mp hmem) hu hk

theorem serial_pairs_unique {tasks : List Task} (hnd : tasks.Nodup) {p q : Task × Nat}
    (hp : p ∈ serialStarts 0 (orderedList tasks))
    (hq : q ∈ serialStarts 0 (orderedList tasks)) (hfst : p.1 = q.1) : p = q := by
  have hnodup : ((serialStarts 0 (orderedList tasks)).map Prod.fst).Nodup := by
    rw [serialStarts_fst]
    exact orderedList_nodup hnd
  exact List.inj_on_of_nodup_map hnodup hp hq hfst

theorem serial_filter {tasks : List Task}
    (hdur : ∀ u ∈ tasks, 0 < u.duration) (hkeys : (tasks.map Task.key).Nodup)
    {u : Task} (hu : u ∈ tasks) {s : Nat}
    (hs : (u, s) ∈ serialStarts 0 (orderedList tasks)) :
    startFilter (serialX (orderedList tasks)) u.key (horizon tasks) = {s} := by
  have hnd : tasks.Nodup := List.Nodup.of_map _ hkeys
  ext t
  simp only [mem_startFilter, Finset.mem_singleton]
  constructor
  · rintro ⟨ht, hx⟩
    obtain ⟨p, hp, hpk, hpt⟩ := serialX_iff.mp hx
    have h1 : p.1 = u := serial_start_unique hkeys hp hu hpk
    have h2 : p = (u, s) := serial_pairs_unique hnd hp hs h1
    rw [← hpt, h2]
  · intro heq
    refine ⟨?_, serialX_iff.mpr ⟨(u, s), hs, rfl, heq.symm⟩⟩
    have hb := (serialStarts_bounds hs).2
    dsimp only at hb
    rw [orderedList_durations hnd] at hb
    have hd := hdur u hu
    omega

/-- The fully-serial schedule satisfies every constraint `run_optimizer`
generates, with makespan value `horizon tasks`: with positive durations and
pairwise-distinct string keys, the model is satisfiable within the computed
horizon. -/
theorem serial_sat (tasks : List Task)
    (hdur : ∀ u ∈ tasks, 0 < u.duration)
    (hkeys : (tasks.map Task.key).Nodup) :
    Sat tasks (serialX (orderedList tasks)) ((horizon tasks : ℕ) : ℚ) := by
  have hnd : tasks.Nodup := List.Nodup.of_map _ hkeys
  have hex : ∀ u ∈ tasks, ∃ s, (u, s) ∈ serialStarts 0 (orderedList tasks) :=
    fun u hu => mem_serialStarts_of_mem (mem_orderedList_iff.mpr hu) 0
  have hfil : ∀ u ∈ tasks, ∀ s, (u, s) ∈ serialStarts 0 (orderedList tasks) →
      startFilter (serialX (orderedList tasks)) u.key (horizon tasks) = {s} :=
    fun u hu s hs => serial_filter hdur hkeys hu hs
  have hone : ∀ u ∈ tasks, startSum (serialX (orderedList tasks)) u.key (horizon tasks) = 1 := by
    intro u hu
    obtain ⟨s, hs⟩ := hex u hu
    rw [startSum_eq_card, hfil u hu s hs, Finset.card_singleton]
  refine ⟨hone, ?_, ?_, ?_, ?_⟩
  · -- Constraint 2: window sums are bounded by the (positive) duration.
    intro u hu t ht hle
    have hsub : Finset.Ico t (t + u.duration) ⊆ Finset.range (horizon tasks) := by
      intro s hsmem
      rw [Finset.mem_Ico] at hsmem
      exact Finset.mem_range.mpr (lt_of_lt_of_le hsmem.2 hle)
    calc (∑ s ∈ Finset.Ico t (t + u.duration), ind (serialX (orderedList tasks) u.key s))
        ≤ ∑ s ∈ Finset.range (horizon tasks), ind (serialX (orderedList tasks) u.key s) :=
          Finset.sum_le_sum_of_subset hsub
      _ = 1 := hone u hu
      _ ≤ u.duration := hdur u hu
  · -- Constraint 3: consecutive dish tasks are laid out back to back.
    intro d hd p hp
    obtain ⟨n1, n2, hnames⟩ := List.append_of_mem (List.mem_dedup.mpr hd)
    obtain ⟨l1, l2, hdish⟩ := consecPairs_split hp
    have hOL : orderedList tasks =
        (n1.flatMap (dishTasks tasks) ++ l1) ++ p.1 :: p.2 ::
          (l2 ++ n2.flatMap (dishTasks tasks)) := by
      rw [orderedList, hnames, List.flatMap_append, List.flatMap_cons, hdish]
      simp [List.append_assoc]
    have h1 : (p.1, 0 + (((n1.flatMap (dishTasks tasks) ++ l1)).map Task.duration).sum) ∈
        serialStarts 0 (orderedList tasks) := by
      rw [hOL, serialStarts_append]
      refine List.mem_append_right _ ?_
      rw [serialStarts]
      exact List.mem_cons_self _ _
    have h2 : (p.2, 0 + (((n1.flatMap (dishTasks tasks) ++ l1)).map Task.duration).sum
          + p.1.duration) ∈ serialStarts 0 (orderedList tasks) := by
      rw [hOL, serialStarts_append]
      refine List.mem_append_right _ ?_
      rw [serialStarts, serialStarts]
      exact List.mem_cons_of_mem _ (List.mem_cons_self _ _)
    have hm1 : p.1 ∈ tasks := mem_of_mem_dishTasks (consecPairs_mem hp).1
    have hm2 : p.2 ∈ tasks := mem_of_mem_dishTasks (consecPairs_mem hp).2
    rw [endSum_eq p.1.duration (hfil p.1 hm1 _ h1), posSum_eq (hfil p.2 hm2 _ h2)]
  · -- Constraint 4: distinct serial intervals are disjoint.
    intro i hi hie t ht
    have hilen : i < tasks.length := List.mem_range.mp hi
    have hui : nth tasks i ∈ tasks := nth_mem hilen
    cases hxt : serialX (orderedList tasks) (nth tasks i).key t with
    | false =>
        have hR : (1 - ind false) * horizon tasks = horizon tasks := by simp [ind]
        rw [hR]
        calc (∑ j ∈ Finset.range tasks.length,
                if j ≠ i ∧ (nth tasks j).isExclusive = true then
                  windowSum (serialX (orderedList tasks)) (nth tasks j).key t
                    (nth tasks i).duration (horizon tasks)
                else 0)
            ≤ ∑ j ∈ Finset.range tasks.length, 1 := by
              refine Finset.sum_le_sum ?_
              intro j hj
              split
              · have hjlen : j < tasks.length := List.mem_range.mp hj
                have hsub : Finset.Ico t (min (t + (nth tasks i).duration) (horizon tasks)) ⊆
                    Finset.range (horizon tasks) := by
                  intro s hsmem
                  rw [Finset.mem_Ico] at hsmem
                  exact Finset.mem_range.mpr (lt_of_lt_of_le hsmem.2 (min_le_right _ _))
                calc windowSum (serialX (orderedList tasks)) (nth tasks j).key t
                      (nth tasks i).duration (horizon tasks)
                    ≤ ∑ s ∈ Finset.range (horizon tasks),
                        ind (serialX (orderedList tasks) (nth tasks j).key s) :=
                      Finset.sum_le_sum_of_subset hsub
                  _ = 1 := hone _ (nth_mem hjlen)
              · exact Nat.zero_le 1
          _ = tasks.length := by simp
          _ ≤ horizon tasks := length_le_horizon hdur
    | true =>
        have hR : (1 - ind true) * horizon tasks = 0 := by simp [ind]
        rw [hR, Nat.le_zero]
        refine Finset.sum_eq_zero ?_
        intro j hj
        have hjlen : j < tasks.length := List.mem_range.mp hj
        by_cases hc : j ≠ i ∧ (nth tasks j).isExclusive = true
        · rw [if_pos hc]
          refine Finset.sum_eq_zero ?_
          intro s hsmem
          rw [Finset.mem_Ico] at hsmem
          by_contra hnz
          have hxs : serialX (orderedList tasks) (nth tasks j).key s = true := by

            cases hxs2 : serialX (orderedList tasks) (nth tasks j).key s
            · rw [hxs2] at hnz
              simp [ind] at hnz
            · rfl
          obtain ⟨p, hp, hpk, hpt⟩ := serialX_iff.mp hxt
          obtain ⟨q, hq, hqk, hqt⟩ := serialX_iff.mp hxs
          have hp1 : p.1 = nth tasks i := serial_start_unique hkeys hp hui hpk
          have hq1 : q.1 = nth tasks j := serial_start_unique hkeys hq (nth_mem hjlen) hqk
          have hpit : (nth tasks i, t) ∈ serialStarts 0 (orderedList tasks) := by
            have he : ((p.1 : Task), p.2) ∈ serialStarts 0 (orderedList tasks) := by
              rw [Prod.mk.eta]; exact hp
            rw [hp1, hpt] at he; exact he
          have hqjs : (nth tasks j, s) ∈ serialStarts 0 (orderedList tasks) := by
            have he : ((q.1 : Task), q.2) ∈ serialStarts 0 (orderedList tasks) := by
              rw [Prod.mk.eta]; exact hq
            rw [hq1, hqt] at he; exact he
          have hne : nth tasks i ≠ nth tasks j := by
            intro heq
            rw [nth_eq_get hilen, nth_eq_get hjlen] at heq
            have h2 := (hnd.get_inj_iff).mp heq
            exact hc.1 (congrArg Fin.val h2).symm
          have hlt := lt_min_iff.mp hsmem.2
          rcases pairwise_either (serialStarts_pairwise 0 (orderedList tasks)) hpit hqjs
              (fun heq => hne (congrArg Prod.fst heq)) with hor | hor
          · simp only at hor
            omega
          · have hdj := hdur (nth tasks j) (nth_mem hjlen)
            simp only at hor
            have hts := hsmem.1
            omega
        · rw [if_neg hc]
  · -- Makespan: every serial end time is at most the horizon.
    refine ⟨Nat.cast_nonneg _, ?_⟩
    intro u hu
    obtain ⟨s, hs⟩ := hex u hu
    rw [endSum_eq u.duration (hfil u hu s hs)]
    have hb := (serialStarts_bounds hs).2
    dsimp only at hb
    rw [orderedList_durations hnd] at hb
    exact_mod_cast (by omega : s + u.duration ≤ horizon tasks)

/-- Four tasks with pairwise-distinct `(name, task_type)` pairs whose string
keys collide (`"a" + "_" + "b_y" = "a_b" + "_" + "y"`), wiring the two
dishes' precedence chains into a cycle over the shared variable families. -/
def pairColl : List Task :=
  [Task.make "a" "b_y" 1 1, Task.make "a" "b_w" 1 2,
   Task.make "a_b" "w" 1 1, Task.make "a_b" "y" 1 2]

/-- C8 counterexample: an input with positive durations and pairwise-distinct
`(name, task_type)` pairs whose constraint model is unsatisfiable — the keys
are built by string concatenation with `"_"`, so distinct pairs can share a
variable family, and here the two dishes' precedence constraints contradict
each other. -/
theorem pair_distinct_feasibility_refuted :
    (pairColl.map (fun u => (u.name, u.task_type))).Nodup ∧
      (∀ u ∈ pairColl, 0 < u.duration) ∧
      ¬ ∃ (x : String → Nat → Bool) (M : ℚ), Sat pairColl x M := by
  refine ⟨by decide, by decide, ?_⟩
  rintro ⟨x, M, hSat⟩
  have hP1 := hSat.2.2.1 "a" (by decide)
    (Task.make "a" "b_y" 1 1, Task.make "a" "b_w" 1 2) (by decide)
  have hP2 := hSat.2.2.1 "a_b" (by decide)
    (Task.make "a_b" "w" 1 1, Task.make "a_b" "y" 1 2) (by decide)
  have hS1 := hSat.1 (Task.make "a" "b_y" 1 1) (by decide)
  have hS2 := hSat.1 (Task.make "a_b" "w" 1 1) (by decide)
  dsimp only at hP1 hP2
  have hk1 : (Task.make "a" "b_y" 1 1).key = "a_b_y" := rfl
  have hk2 : (Task.make "a" "b_w" 1 2).key = "a_b_w" := rfl
  have hk3 : (Task.make "a_b" "w" 1 1).key = "a_b_w" := rfl
  have hk4 : (Task.make "a_b" "y" 1 2).key = "a_b_y" := rfl
  rw [hk1] at hS1
  rw [hk3] at hS2
  rw [hk1, hk2] at hP1
  rw [hk3, hk4] at hP2
  rw [endSum_eq_posSum_add _ hS1] at hP1
  rw [endSum_eq_posSum_add _ hS2] at hP2
  dsimp only [Task.make] at hP1 hP2
  omega

/-- C8 (amended): for every task list with positive durations and
pairwise-distinct string keys `name + "_" + task_type` (distinct
`(name, task_type)` pairs are not enough, because an underscore inside a name
can make two pairs collide to one key), the constraint model over the horizon
`Σ duration` admits a satisfying assignment — the fully-serial schedule fits
in the horizon. -/
theorem horizon_serial_feasible (tasks : List Task)
    (hdur : ∀ u ∈ tasks, 0 < u.duration)
    (hkeys : (tasks.map Task.key).Nodup) :
    ∃ (x : String → Nat → Bool) (M : ℚ), Sat tasks x M :=
  ⟨serialX (orderedList tasks), ((horizon tasks : ℕ) : ℚ), serial_sat tasks hdur hkeys⟩

/-- The eight-task instance of `cookest.py`. -/
def tasksCookest : List Task :=
  [Task.make "egg" "chop" 5 1, Task.make "egg" "fry" 5 2,
   Task.make "tofu" "chop" 5 1, Task.make "tofu" "fry" 10 2,
   Task.make "rice" "wash" 2 1, Task.make "rice" "steam" 20 2,
   Task.make "chickenbrocolli" "chop" 10 1, Task.make "chickenbrocolli" "fry" 10 2]

/-- Witness for the amended C8 on the repository's own instance. -/
theorem horizon_serial_feasible_witness :
    (∀ u ∈ tasksCookest, 0 < u.duration) ∧ (tasksCookest.map Task.key).Nodup ∧
      ∃ (x : String → Nat → Bool) (M : ℚ), Sat tasksCookest x M :=
  ⟨by decide, by decide, horizon_serial_feasible tasksCookest (by decide) (by decide)⟩

/-- Two tasks of one dish sharing sequence index `1`. -/
def tasksTie : List Task := [Task.make "d" "steam" 1 1, Task.make "d" "fry" 1 1]

/-- A satisfying assignment for `tasksTie`: the tie is broken by input order
(stable sort), `d_steam` first. -/
def xTie : String → Nat → Bool := fun k t =>
  (k == "d_steam" && t == 0) || (k == "d_fry" && t == 1)

/-- C7 counterexample: two tasks of the same dish share a sequence index, yet
the model is satisfiable and `run_optimizer` returns a complete schedule —
not an `InfeasibleScheduleError` (which does not exist in the code). -/
theorem duplicate_seq_claim_refuted :
    (∃ u ∈ tasksTie, ∃ v ∈ tasksTie, u ≠ v ∧ u.name = v.name ∧
        u.sequence = v.sequence) ∧
      Sat tasksTie xTie 2 ∧
      (run_optimizer tasksTie (SolverOutcome.optimal xTie)).1 =
        [("d_steam", 0, 1), ("d_fry", 1, 2)] :=
  ⟨by decide, by decide, by decide⟩

/-- C7 (amended): an input in which two tasks of the same dish share a
sequence index still yields a satisfiable model (given positive durations and
distinct keys): the stable sort orders the tied tasks by input position and
adds an ordinary one-way precedence constraint between them, which the serial
schedule satisfies; the solver therefore returns a schedule rather than
reporting infeasibility. -/
theorem duplicate_seq_still_feasible (tasks : List Task)
    (hdur : ∀ u ∈ tasks, 0 < u.duration)
    (hkeys : (tasks.map Task.key).Nodup)
    (hdup : ∃ u ∈ tasks, ∃ v ∈ tasks, u ≠ v ∧ u.name = v.name ∧
      u.sequence = v.sequence) :
    ∃ (x : String → Nat → Bool) (M : ℚ), Sat tasks x M :=
  ⟨serialX (orderedList tasks), ((horizon tasks : ℕ) : ℚ), serial_sat tasks hdur hkeys⟩

/-- Witness for the amended C7 at a concrete input. -/
theorem duplicate_seq_still_feasible_witness :
    (∀ u ∈ tasksTie, 0 < u.duration) ∧ (tasksTie.map Task.key).Nodup ∧
      (∃ u ∈ tasksTie, ∃ v ∈ tasksTie, u ≠ v ∧ u.name = v.name ∧
        u.sequence = v.sequence) ∧
      ∃ (x : String → Nat → Bool) (M : ℚ), Sat tasksTie x M :=
  ⟨by decide, by decide, by decide,
   duplicate_seq_still_feasible tasksTie (by decide) (by decide) (by decide)⟩

/-! ### Python-dict bookkeeping for the returned schedule -/

theorem lookup_dictInsert_self (s : Schedule) (k : String) (v : Nat × Nat) :
    lookup (dictInsert s k v) k = some v := by
  induction s with
  | nil => simp [dictInsert, lookup, List.find?]
  | cons e rest ih =>
      rw [dictInsert]
      by_cases h : e.1 = k
      · rw [if_pos (beq_iff_eq.mpr h)]
        simp [lookup, List.find?]
      · rw [if_neg (by simpa using h)]
        rw [lookup, List.find?]
        have hne : (e.1 == k) = false := by simpa using h
        rw [hne]
        exact ih

theorem lookup_dictInsert_ne (s : Schedule) (k : String) (v : Nat × Nat)
    {q : String} (hq : q ≠ k) : lookup (dictInsert s k v) q = lookup s q := by
  induction s with
  | nil =>
      simp only [dictInsert, lookup, List.find?]
      rw [show (k == q) = false by simpa using (Ne.symm hq)]
  | cons e rest ih =>
      rw [dictInsert]
      by_cases h : e.1 = k
      · rw [if_pos (beq_iff_eq.mpr h)]
        simp only [lookup, List.find?]
        rw [show (k == q) = false by simpa using (Ne.symm hq),
          show (e.1 == q) = false by simpa using (h ▸ Ne.symm hq)]
      · rw [if_neg (by simpa using h)]
        simp only [lookup, List.find?]
        cases he : e.1 == q
        · exact ih
        · rfl

theorem fst_dictInsert_of_mem {s : Schedule} {k : String} (v : Nat × Nat)
    (h : k ∈ s.map Prod.fst) : (dictInsert s k v).map Prod.fst = s.map Prod.fst := by
  induction s with
  | nil => cases h
  | cons e rest ih =>
      rw [dictInsert]
      by_cases he : e.1 = k
      · rw [if_pos (beq_iff_eq.mpr he)]
        simp [he]
      · rw [if_neg (by simpa using he)]
        have h2 : k ∈ rest.map Prod.fst := by
          rcases List.mem_cons.mp h with h3 | h3
          · exact absurd h3.symm he
          · exact h3
        simp only [List.map_cons]
        rw [ih h2]

theorem fst_dictInsert_of_not_mem {s : Schedule} {k : String} (v : Nat × Nat)
    (h : k ∉ s.map Prod.fst) :
    (dictInsert s k v).map Prod.fst = s.map Prod.fst ++ [k] := by
  induction s with
  | nil => simp [dictInsert]
  | cons e rest ih =>
      rw [dictInsert]
      by_cases he : e.1 = k
      · exfalso
        apply h
        rw [List.map_cons, he]
        exact List.mem_cons_self k _
      · rw [if_neg (by simpa using he)]
        simp only [List.map_cons, List.cons_append]
        rw [ih (fun h2 => h (List.mem_cons_of_mem _ h2))]

theorem keys_nodup_dictInsert {s : Schedule} (k : String) (v : Nat × Nat)
    (h : (s.map Prod.fst).Nodup) : ((dictInsert s k v).map Prod.fst).Nodup := by
  by_cases hm : k ∈ s.map Prod.fst
  · rw [fst_dictInsert_of_mem v hm]; exact h
  · rw [fst_dictInsert_of_not_mem v hm]
    rw [List.nodup_append]
    exact ⟨h, List.nodup_singleton k, by simpa using hm⟩

theorem mem_fst_dictInsert (s : Schedule) (k : String) (v : Nat × Nat) :
    k ∈ (dictInsert s k v).map Prod.fst := by
  by_cases hm : k ∈ s.map Prod.fst
  · rw [fst_dictInsert_of_mem v hm]; exact hm
  · rw [fst_dictInsert_of_not_mem v hm]
    exact List.mem_append_right _ (List.mem_singleton.mpr rfl)

theorem mem_fst_dictInsert_mono {s : Schedule} {q : String} (k : String) (v : Nat × Nat)
    (h : q ∈ s.map Prod.fst) : q ∈ (dictInsert s k v).map Prod.fst := by
  by_cases hm : k ∈ s.map Prod.fst
  · rw [fst_dictInsert_of_mem v hm]; exact h
  · rw [fst_dictInsert_of_not_mem v hm]; exact List.mem_append_left _ h

/-! ### The extraction fold -/

theorem extract_snd_general (x : String → Nat → Bool) (H : Nat) :
    ∀ (l : List Task) (acc : Schedule × List Task),
      (l.foldl (extractStep x H) acc).2 = acc.2 ++ l.map (updTask x H) := by
  intro l
  induction l with
  | nil => intro acc; simp
  | cons u rest ih =>
      intro acc
      rw [List.foldl_cons, ih]
      have hstep : (extractStep x H acc u).2 = acc.2 ++ [updTask x H u] := by
        cases hls : lastStart x u.key H <;> simp [extractStep, updTask, hls]
      rw [hstep]
      simp

theorem extract_fold_lookup_ne (x : String → Nat → Bool) (H : Nat) :
    ∀ (l : List Task) (acc : Schedule × List Task) (k : String),
      (∀ u ∈ l, u.key ≠ k) →
      lookup ((l.foldl (extractStep x H) acc).1) k = lookup acc.1 k := by
  intro l
  induction l with
  | nil => intro acc k _; rfl
  | cons u rest ih =>
      intro acc k hne
      rw [List.foldl_cons, ih _ _ (fun v hv => hne v (List.mem_cons_of_mem u hv))]
      cases hls : lastStart x u.key H
      · simp [extractStep, hls]
      · simp only [extractStep, hls]
        exact lookup_dictInsert_ne _ _ _ (Ne.symm (hne u (List.mem_cons_self u rest)))

theorem extract_fold_keys_nodup (x : String → Nat → Bool) (H : Nat) :
    ∀ (l : List Task) (acc : Schedule × List Task),
      ((acc.1.map Prod.fst)).Nodup →
      (((l.foldl (extractStep x H) acc).1).map Prod.fst).Nodup := by
  intro l
  induction l with
  | nil => intro acc h; exact h
  | cons u rest ih =>
      intro acc h
      rw [List.foldl_cons]
      refine ih _ ?_
      cases hls : lastStart x u.key H
      · simpa [extractStep, hls] using h
      · simp only [extractStep, hls]
        exact keys_nodup_dictInsert _ _ h

theorem extract_fold_keys_mono (x : String → Nat → Bool) (H : Nat) :
    ∀ (l : List Task) (acc : Schedule × List Task) (k : String),
      k ∈ acc.1.map Prod.fst →
      k ∈ ((l.foldl (extractStep x H) acc).1).map Prod.fst := by
  intro l
  induction l with
  | nil => intro acc k h; exact h
  | cons u rest ih =>
      intro acc k h
      rw [List.foldl_cons]
      refine ih _ _ ?_
      cases hls : lastStart x u.key H
      · simpa [extractStep, hls] using h
      · simp only [extractStep, hls]
        exact mem_fst_dictInsert_mono _ _ h

/-- A one-task instance for observing the extraction loop's mutation. -/
def tasksMut : List Task := [Task.make "a" "steam" 1 1]

/-- The optimal assignment for `tasksMut`. -/
def xMut : String → Nat → Bool := fun k t => k == "a_steam" && t == 0

/-- C9 counterexample: the scheduling run does not leave the input task
descriptors unchanged — the extraction loop writes `start_time` and
`end_time` into the task objects, so the final task states differ from the
input. -/
theorem extraction_mutates_tasks :
    (run_optimizer tasksMut (SolverOutcome.optimal xMut)).2 ≠ tasksMut := by decide

/-- C9 (amended): schedule extraction is a deterministic function of the
solved assignment: the slot `t` recorded for a task is the last slot at which
its variable is set, the schedule entry is `(t, t + duration)`, and the other
four task fields are untouched — but the `start_time`/`end_time` fields of
every input task object ARE overwritten (`updTask`), so the input descriptors
are mutated rather than left unchanged. -/
theorem extract_deterministic_but_mutating (tasks : List Task)
    (x : String → Nat → Bool) (u : Task) (hu : u ∈ tasks) (t : Nat)
    (ht : lastStart x u.key (horizon tasks) = some t)
    (hkeys : (tasks.map Task.key).Nodup) :
    (extractSchedule tasks x).2 = tasks.map (updTask x (horizon tasks)) ∧
      updTask x (horizon tasks) u =
        { u with start_time := some t, end_time := some (t + u.duration) } ∧
      lookup (extractSchedule tasks x).1 u.key = some (t, t + u.duration) := by
  refine ⟨?_, ?_, ?_⟩
  · rw [extractSchedule, extract_snd_general]
    rfl
  · simp [updTask, ht]
  · obtain ⟨pre, post, rfl⟩ := List.append_of_mem hu
    have hpost : ∀ v ∈ post, v.key ≠ u.key := by
      intro v hv heq
      have hsub : (u.key :: post.map Task.key).Nodup := by
        refine List.Nodup.sublist ?_ hkeys
        rw [List.map_append, List.map_cons]
        exact List.sublist_append_right _ _
      exact (List.nodup_cons.mp hsub).1 (heq ▸ List.mem_map_of_mem Task.key hv)
    rw [extractSchedule, List.foldl_append, List.foldl_cons]
    rw [extract_fold_lookup_ne _ _ _ _ _ hpost]
    have hstep : (extractStep x (horizon (pre ++ u :: post))
        (List.foldl (extractStep x (horizon (pre ++ u :: post))) ([], []) pre) u).1 =
        dictInsert (List.foldl (extractStep x (horizon (pre ++ u :: post)))
          ([], []) pre).1 u.key (t, t + u.duration) := by
      simp [extractStep, ht]
    rw [hstep, lookup_dictInsert_self]

/-- Witness for the amended C9 at a concrete input. -/
theorem extract_deterministic_but_mutating_witness :
    lastStart xMut (Task.make "a" "steam" 1 1).key (horizon tasksMut) = some 0 ∧
      (tasksMut.map Task.key).Nodup ∧
      ((extractSchedule tasksMut xMut).2 =
          tasksMut.map (updTask xMut (horizon tasksMut)) ∧
        updTask xMut (horizon tasksMut) (Task.make "a" "steam" 1 1) =
          { (Task.make "a" "steam" 1 1) with
              start_time := some 0,
              end_time := some (0 + (Task.make "a" "steam" 1 1).duration) } ∧
        lookup (extractSchedule tasksMut xMut).1 (Task.make "a" "steam" 1 1).key =
          some (0, 0 + (Task.make "a" "steam" 1 1).duration)) :=
  ⟨by decide, by decide,
   extract_deterministic_but_mutating tasksMut xMut (Task.make "a" "steam" 1 1)
     (by decide) 0 (by decide) (by decide)⟩

/-- Two distinct task descriptors sharing the key `a_steam` (non-exclusive
type), so the model stays satisfiable and the two descriptors are silently
merged. -/
def tasksDup : List Task := [Task.make "a" "steam" 1 1, Task.make "a" "steam" 2 2]

/-- An assignment setting the shared family `a_steam` at slot `0`. -/
def xDup : String → Nat → Bool := fun k t => k == "a_steam" && t == 0

/-- C10 counterexample: the claim is not true of every duplicate-key input.
When the duplicated key is of exclusive type, constraint 4 applied to the
shared variable family is unsatisfiable, the solver reports infeasibility and
the returned schedule is empty — it does not contain an entry for the shared
key. -/
theorem duplicate_exclusive_keys_not_merged :
    (nth dupExcl 0 ≠ nth dupExcl 1 ∧ (nth dupExcl 0).key = (nth dupExcl 1).key) ∧
      (¬ ∃ (x : String → Nat → Bool) (M : ℚ), Sat dupExcl x M) ∧
      schedCount (run_optimizer dupExcl SolverOutcome.infeasible).1
        (nth dupExcl 0).key = 0 :=
  ⟨by decide, dupExcl_unsat, by decide⟩

/-- C10 (amended): `run_optimizer` never fails on duplicate
`(name, task_type)` descriptors: both map to the same variable family and the
same single-start constraint.  Whenever the solved assignment sets the shared
family at some slot, the returned schedule carries exactly one entry for the
shared key (the duplicates are merged); when the duplicated key is of
exclusive type the model is instead infeasible and the returned schedule is
empty. -/
theorem duplicate_keys_merged (tasks : List Task) (x : String → Nat → Bool)
    (u v : Task) (hu : u ∈ tasks) (hv : v ∈ tasks) (huv : u ≠ v)
    (hk : u.key = v.key) (t : Nat)
    (ht : lastStart x u.key (horizon tasks) = some t) :
    startSum x u.key (horizon tasks) = startSum x v.key (horizon tasks) ∧
      schedCount ((extractSchedule tasks x).1) u.key = 1 := by
  refine ⟨by rw [hk], ?_⟩
  have hnodup : (((extractSchedule tasks x).1).map Prod.fst).Nodup := by
    rw [extractSchedule]
    exact extract_fold_keys_nodup _ _ _ _ (by simp)
  have hle : schedCount ((extractSchedule tasks x).1) u.key ≤ 1 :=
    List.nodup_iff_count_le_one.mp hnodup u.key
  have hmem : u.key ∈ ((extractSchedule tasks x).1).map Prod.fst := by
    obtain ⟨pre, post, rfl⟩ := List.append_of_mem hu
    rw [extractSchedule, List.foldl_append, List.foldl_cons]
    refine extract_fold_keys_mono _ _ _ _ _ ?_
    have hstep : (extractStep x (horizon (pre ++ u :: post))
        (List.foldl (extractStep x (horizon (pre ++ u :: post))) ([], []) pre) u).1 =
        dictInsert (List.foldl (extractStep x (horizon (pre ++ u :: post)))
          ([], []) pre).1 u.key (t, t + u.duration) := by
      simp [extractStep, ht]
    rw [hstep]
    exact mem_fst_dictInsert _ _ _
  have hpos : 0 < schedCount ((extractSchedule tasks x).1) u.key :=
    List.count_pos_iff.mpr hmem
  omega

/-- Witness for the amended C10 at a concrete input. -/
theorem duplicate_keys_merged_witness :
    Task.make "a" "steam" 1 1 ≠ Task.make "a" "steam" 2 2 ∧
      (Task.make "a" "steam" 1 1).key = (Task.make "a" "steam" 2 2).key ∧
      lastStart xDup (Task.make "a" "steam" 1 1).key (horizon tasksDup) = some 0 ∧
      schedCount ((extractSchedule tasksDup xDup).1)
        (Task.make "a" "steam" 1 1).key = 1 :=
  ⟨by decide, by decide, by decide,
   (duplicate_keys_merged tasksDup xDup (Task.make "a" "steam" 1 1)
     (Task.make "a" "steam" 2 2) (by decide) (by decide) (by decide) (by decide)
     0 (by decide)).2⟩

end Cookest
